import Mathlib

/-!
# cedar-go: the `Policy` wrapper, positional errors and the authorization rule

Shallow embedding of `policy.go` (package `cedar`) and `parsererror/errors.go`.

* Go structs become Lean structures with the same field names.
* Go `int` fields carry no arithmetic here and are embedded as `Int`.
* The pointer field `Policy.ast` is embedded by the value it points to; a
  method that assigns through the pointer returns the updated policy. A `Policy`
  of the embedding is an initialised one, as `newPolicy` builds it; the Go zero
  value `Policy{}`, whose `ast` pointer is nil, is not represented.
* A Go map is embedded as an association list holding at most one entry per
  key; it is observed through `get?`.
-/

set_option autoImplicit false

/-! ## Package `types` -/

namespace types

/-- Go `types.Ident`, a string type. -/
abbrev Ident := String

end types

/-! ## Package `internal/ast` (declarations used by `policy.go`) -/

namespace internalast

/-- Modelled from the spec: `internal/ast.Position` is declared outside `policy.go`, which
converts it with `Position(p.ast.Position)`; Go only allows that conversion when both
structs have the fields of `cedar.Position`, in the same order. -/
structure Position where
  Filename : String
  Offset : Int
  Line : Int
  Column : Int
deriving DecidableEq

/-- Modelled from the spec: `internal/ast.Effect` is declared outside `policy.go`, which
converts it with `Effect(p.ast.Effect)` into the boolean type `cedar.Effect`, so it is a
boolean type as well. -/
abbrev Effect := Bool

/-- Modelled from the spec: the permit value of `internal/ast.Effect`, the one that
`Effect(p.ast.Effect)` turns into `Permit = Effect(true)`. -/
def EffectPermit : Effect := true

/-- Modelled from the spec: the forbid value of `internal/ast.Effect`, the one that
`Effect(p.ast.Effect)` turns into `Forbid = Effect(false)`. -/
def EffectForbid : Effect := false

/-- Modelled from the spec: one entry of `p.ast.Annotations`; `policy.go` reads its `Key`
and `Value` fields. -/
structure AnnotationType where
  Key : types.Ident
  Value : String
deriving DecidableEq

end internalast

/-! ## The data model of the evaluation core (spec §3, §4.2, §7) -/

/-- Modelled from the spec: an EntityUID is "a type name plus an identifier string",
compared by exact equality (§3). The type is declared outside `policy.go`. -/
structure EntityUID where
  type : String
  id : String
deriving DecidableEq

/-- Modelled from the spec: the runtime values of §3. `Long` is a signed 64-bit integer,
carried as an `Int`; an extension value is carried by the name of its extension type and
its textual form. The type is declared outside `policy.go`. -/
inductive Value where
  | bool (b : Bool)
  | long (n : Int)
  | string (s : String)
  | set (elems : List Value)
  | record (attrs : List (String × Value))
  | entity (uid : EntityUID)
  | extension (typeName : String) (text : String)

/-- Modelled from the spec: the error kinds of §7. -/
inductive EvalError where
  | TypeMismatch
  | AttributeAccess
  | EntityNotFound
  | IntegerOverflow
  | ExtensionError
  | UnboundVariable
deriving DecidableEq

/-- Modelled from the spec: a request is a principal, an action, a resource and a context
record (§3). -/
structure Request where
  principal : EntityUID
  action : EntityUID
  resource : EntityUID
  context : List (String × Value)

/-- Modelled from the spec: an entity owns a record of attributes (§3). -/
structure Entity where
  uid : EntityUID
  attrs : List (String × Value)

/-- Modelled from the spec: the read-only entity store interface of §4.2, `lookup` and
`ancestors` (the finished ancestor closure of an entity). -/
structure EntityStore where
  lookup : EntityUID → Option Entity
  ancestors : EntityUID → List EntityUID

/-- Modelled from the spec: one head constraint of a policy scope (§3): Any, Eq(u), In(u),
Is(t), or Is(t) combined with In(u). -/
inductive ScopeConstraint where
  | Any
  | Eq (u : EntityUID)
  | In (u : EntityUID)
  | Is (t : String)
  | IsIn (t : String) (u : EntityUID)
deriving DecidableEq

/-- Modelled from the spec: the tag of a condition clause, `when` or `unless` (§3). -/
inductive ConditionKind where
  | When
  | Unless
deriving DecidableEq

/-- Modelled from the spec: a condition clause wraps a boolean expression (§3). The
expression tree type `Expr` is left open. -/
structure ConditionType (Expr : Type) where
  Condition : ConditionKind
  Body : Expr

/-- Modelled from the spec: the verdict of the policy evaluator for one policy and one
request (§4.5). -/
inductive Outcome where
  | Satisfied
  | NotSatisfied
  | Errored (e : EvalError)
deriving DecidableEq

namespace internalast

/-- Modelled from the spec: the parsed policy `internal/ast.Policy`, which is declared
outside `policy.go`. `policy.go` reads its `Effect`, `Annotations` and `Position`
fields; the scope and the ordered condition clauses are those of spec §3. -/
structure Policy (Expr : Type) where
  Effect : Effect
  Annotations : List AnnotationType
  Principal : ScopeConstraint
  Action : ScopeConstraint
  Resource : ScopeConstraint
  Conditions : List (ConditionType Expr)
  Position : Position

end internalast

/-! ## Package `internal/eval` -/

namespace eval

/-- Modelled from the spec: the `Evaler` interface is declared outside `policy.go`, which
documents the field holding it as "determines if a policy matches a request". It is the
policy entry point of spec §6 with the policy fixed. -/
abbrev Evaler := Request → EntityStore → Outcome

end eval

/-! ## Package `cedar` (`policy.go`) -/

namespace cedar

/-- A Policy is the parsed form of a single Cedar language policy statement. -/
structure Policy (Expr : Type) where
  eval : eval.Evaler
  ast : internalast.Policy Expr

/-- Go `newPolicy`; `Compile` is `eval.Compile`, which is defined outside `policy.go`. -/
def newPolicy {Expr : Type} (Compile : internalast.Policy Expr → eval.Evaler)
    (astIn : internalast.Policy Expr) : Policy Expr :=
  { eval := Compile astIn, ast := astIn }

/-- Go `NewPolicyFromAST`: the public `ast.Policy` is converted to the internal one and
handed to `newPolicy`. -/
def NewPolicyFromAST {Expr : Type} (Compile : internalast.Policy Expr → eval.Evaler)
    (astIn : internalast.Policy Expr) : Policy Expr :=
  let p := newPolicy Compile astIn
  p

/-- Go `type Annotations map[types.Ident]types.String`: an association list with at most
one entry per key. -/
abbrev Annotations := List (types.Ident × String)

/-- Map lookup `m[k]` with presence. -/
def Annotations.get? (m : Annotations) (k : types.Ident) : Option String :=
  match m with
  | [] => none
  | (k1, v1) :: rest => if k1 = k then some v1 else Annotations.get? rest k

/-- Map assignment `m[k] = v`: overwrite the entry for `k` or add one. -/
def Annotations.set (m : Annotations) (k : types.Ident) (v : String) : Annotations :=
  match m with
  | [] => [(k, v)]
  | (k1, v1) :: rest => if k1 = k then (k, v) :: rest else (k1, v1) :: Annotations.set rest k v

/-- Go `(*Policy).Annotations`: start from the empty map and assign every entry of the
AST annotation list in order. -/
def Policy.Annotations {Expr : Type} (p : Policy Expr) : Annotations :=
  p.ast.Annotations.foldl (fun res e => Annotations.set res e.Key e.Value) []

/-- Go `type Effect bool`. -/
abbrev Effect := Bool

/-- Go `Permit = Effect(true)`. -/
def Permit : Effect := true

/-- Go `Forbid = Effect(false)`. -/
def Forbid : Effect := false

/-- Go `(*Policy).Effect`. -/
def Policy.Effect {Expr : Type} (p : Policy Expr) : Effect :=
  p.ast.Effect

/-- A Position describes an arbitrary source position including the file, line, and
column location. -/
structure Position where
  Filename : String
  Offset : Int
  Line : Int
  Column : Int
deriving DecidableEq

/-- Go conversion `Position(x)` from `internal/ast.Position`. -/
def Position.ofAst (x : internalast.Position) : Position :=
  { Filename := x.Filename, Offset := x.Offset, Line := x.Line, Column := x.Column }

/-- Go `(*Policy).Position`. -/
def Policy.Position {Expr : Type} (p : Policy Expr) : Position :=
  Position.ofAst p.ast.Position

/-- Go `(*Policy).SetFilename`: assigns `p.ast.Position.Filename`. -/
def Policy.SetFilename {Expr : Type} (p : Policy Expr) (fileName : String) : Policy Expr :=
  { p with ast := { p.ast with Position := { p.ast.Position with Filename := fileName } } }

end cedar

/-! ## The policy evaluator and the authorizer (spec §4.4 to §4.6) -/

/-- Modelled from the spec: the scope matcher of §4.4 for one request slot, which is
defined outside `policy.go`. `Any` always matches; `Eq(u)` matches iff the slot equals `u`;
`In(u)` matches iff the slot equals `u` or `u` is in its ancestor closure; `Is(t)` matches
iff the slot's declared type equals `t`; `Is(t) In(u)` requires both. -/
def ScopeConstraint.matchesSlot (es : EntityStore) (slot : EntityUID) : ScopeConstraint → Bool
  | .Any => true
  | .Eq u => decide (slot = u)
  | .In u => decide (slot = u) || (es.ancestors slot).contains u
  | .Is t => decide (slot.type = t)
  | .IsIn t u => decide (slot.type = t) && (decide (slot = u) || (es.ancestors slot).contains u)

/-- Modelled from the spec: "a policy's scope matches iff all three independent tests
match" (§4.4). The function is defined outside `policy.go`. -/
def scopeMatches {Expr : Type} (p : internalast.Policy Expr) (r : Request) (es : EntityStore) :
    Bool :=
  p.Principal.matchesSlot es r.principal && p.Action.matchesSlot es r.action &&
    p.Resource.matchesSlot es r.resource

/-- Modelled from the spec: the condition clauses are evaluated in order (§3, §4.5); every
`when` clause must evaluate to `true` and every `unless` clause to `false`; evaluation
stops at the first clause that determines non-satisfaction; a clause that fails, or that
does not evaluate to a Boolean, makes the policy `Errored`. The expression evaluator of
§4.3 is the argument `evaluate`. The function is defined outside `policy.go`. -/
def evalConditions {Expr : Type}
    (evaluate : Expr → Request → EntityStore → Except EvalError Value)
    (r : Request) (es : EntityStore) : List (ConditionType Expr) → Outcome
  | [] => Outcome.Satisfied
  | c :: rest =>
    match evaluate c.Body r es with
    | .error e => Outcome.Errored e
    | .ok (Value.bool b) =>
      match c.Condition, b with
      | ConditionKind.When, true => evalConditions evaluate r es rest
      | ConditionKind.When, false => Outcome.NotSatisfied
      | ConditionKind.Unless, false => evalConditions evaluate r es rest
      | ConditionKind.Unless, true => Outcome.NotSatisfied
    | .ok _ => Outcome.Errored EvalError.TypeMismatch

/-- Modelled from the spec: the policy entry point `isSatisfied` of §4.5 and §6, which is
defined outside `policy.go`. If the scope does not match the result is `NotSatisfied` and the
conditions are not evaluated; otherwise the condition clauses decide. -/
def isSatisfied {Expr : Type}
    (evaluate : Expr → Request → EntityStore → Except EvalError Value)
    (p : internalast.Policy Expr) (r : Request) (es : EntityStore) : Outcome :=
  if scopeMatches p r es then evalConditions evaluate r es p.Conditions
  else Outcome.NotSatisfied

namespace eval

/-- Modelled from the spec: `eval.Compile` is defined outside `policy.go`. The compiled
evaluator of a policy is the policy evaluator of §4.5 (scope matcher, then condition
clauses) with the policy fixed. -/
def Compile {Expr : Type}
    (evaluate : Expr → Request → EntityStore → Except EvalError Value)
    (astIn : internalast.Policy Expr) : Evaler :=
  fun r es => isSatisfied evaluate astIn r es

end eval

namespace cedar

/-- Modelled from the spec: a policy identifier (§6). -/
abbrev PolicyID := String

/-- Modelled from the spec: the two decisions of the authorizer (§4.6). -/
inductive Decision where
  | Allow
  | Deny
deriving DecidableEq

/-- Modelled from the spec: the result of `isAuthorized` (§6). -/
structure Response where
  decision : Decision
  determiningPermits : List PolicyID
  determiningForbids : List PolicyID
  errors : List (PolicyID × EvalError)
deriving DecidableEq

/-- Modelled from the spec: what the authorizer collects while it runs the policy evaluator
over the whole policy set (§2 data flow): satisfied permits, satisfied forbids and
evaluation errors. -/
structure Collected where
  permits : List PolicyID
  forbids : List PolicyID
  errors : List (PolicyID × EvalError)
deriving DecidableEq

/-- Modelled from the spec: one step of the authorizer loop (§4.6). The policy evaluator of
a policy is its `eval` field and its effect is `Effect()`. An `Errored` policy never
contributes a Satisfied outcome and is collected as a diagnostic. -/
def collectStep {Expr : Type} (r : Request) (es : EntityStore) (acc : Collected)
    (entry : PolicyID × Policy Expr) : Collected :=
  match entry.2.eval r es with
  | Outcome.Satisfied =>
    if entry.2.Effect = Permit then { acc with permits := acc.permits ++ [entry.1] }
    else { acc with forbids := acc.forbids ++ [entry.1] }
  | Outcome.NotSatisfied => acc
  | Outcome.Errored e => { acc with errors := acc.errors ++ [(entry.1, e)] }

/-- Modelled from the spec: every policy of the set is evaluated, with no early exit
(§4.6). -/
def collect {Expr : Type} (policySet : List (PolicyID × Policy Expr)) (r : Request)
    (es : EntityStore) : Collected :=
  policySet.foldl (collectStep r es) { permits := [], forbids := [], errors := [] }

/-- Modelled from the spec: the authorizer entry point `isAuthorized` of §4.6 and §6, which
is defined outside `policy.go`. Forbid overrides permit and the default is deny: the
decision is
`Deny` if at least one Forbid policy is Satisfied or if no Permit policy is Satisfied, and
`Allow` otherwise. The determining policies are the Satisfied ones that control the
decision (glossary). -/
def isAuthorized {Expr : Type} (policySet : List (PolicyID × Policy Expr)) (r : Request)
    (es : EntityStore) : Response :=
  let c := collect policySet r es
  if c.forbids.isEmpty = false then
    { decision := Decision.Deny, determiningPermits := [], determiningForbids := c.forbids,
      errors := c.errors }
  else if c.permits.isEmpty then
    { decision := Decision.Deny, determiningPermits := [], determiningForbids := [],
      errors := c.errors }
  else
    { decision := Decision.Allow, determiningPermits := c.permits, determiningForbids := [],
      errors := c.errors }

/-- The value of the last entry of an annotation list with key `k`, if there is one. -/
def lastValue (l : List internalast.AnnotationType) (k : types.Ident) : Option String :=
  match l with
  | [] => none
  | e :: rest =>
    match lastValue rest k with
    | some v => some v
    | none => if e.Key = k then some e.Value else none

end cedar

/-! ## Package `parsererror` (`parsererror/errors.go`) -/

namespace parsererror

/-- Go `fmt` rendering of an `int` under `%v`: decimal digits, with a leading minus sign
for a negative number. -/
def fmtInt (n : Int) : String :=
  match n with
  | Int.ofNat m => Nat.repr m
  | Int.negSucc m => "-" ++ Nat.repr (m + 1)

/-- Go `fmt` rendering of a struct under `%v`: the fields in order, separated by single
spaces, between braces. -/
def fmtPosition (p : internalast.Position) : String :=
  "\x7b" ++ p.Filename ++ " " ++ fmtInt p.Offset ++ " " ++ fmtInt p.Line ++ " " ++
    fmtInt p.Column ++ "\x7d"

/-- Go `fmt` rendering of a string under `%v`: the string itself. -/
def fmtString (s : String) : String := s

/-- Go `type PositionalError struct`. -/
structure PositionalError where
  Position : internalast.Position
  Message : String
deriving DecidableEq

/-- Go `(PositionalError).Error`: `fmt.Sprintf("%v: %v", pe.Position, pe.Message)`. -/
def PositionalError.Error (pe : PositionalError) : String :=
  fmtPosition pe.Position ++ ": " ++ fmtString pe.Message

end parsererror

/-! ## A small expression language, used to run the policy evaluator on concrete inputs -/

/-- Modelled from the spec: a fragment of the expression tree of §3: Boolean and Long
literals, checked Long addition, the numeric comparison `<`, the short-circuit `&&` and the
lazy conditional. -/
inductive CoreExpr where
  | boolLit (b : Bool)
  | longLit (n : Int)
  | add (a b : CoreExpr)
  | less (a b : CoreExpr)
  | and (a b : CoreExpr)
  | ite (c t e : CoreExpr)
deriving DecidableEq

/-- The least `Long`, -2^63. -/
def Long.MIN : Int := -9223372036854775808

/-- The greatest `Long`, 2^63 - 1. -/
def Long.MAX : Int := 9223372036854775807

/-- Modelled from the spec: the expression evaluator of §4.3 on the fragment `CoreExpr`.
Literals evaluate to themselves; `+` uses checked 64-bit semantics and fails with
`IntegerOverflow`; `<` requires both sides Long; `&&` evaluates the left side, fails with
`TypeMismatch` if it is not Boolean, returns `false` without evaluating the right side if
it is `false`, and otherwise returns the evaluation of the right side; the conditional
evaluates only the selected branch. -/
def CoreExpr.evaluate (e : CoreExpr) (r : Request) (es : EntityStore) : Except EvalError Value :=
  match e with
  | .boolLit b => .ok (Value.bool b)
  | .longLit n => .ok (Value.long n)
  | .add a b =>
    match CoreExpr.evaluate a r es with
    | .error err => .error err
    | .ok (Value.long x) =>
      match CoreExpr.evaluate b r es with
      | .error err => .error err
      | .ok (Value.long y) =>
        if Long.MIN ≤ x + y ∧ x + y ≤ Long.MAX then .ok (Value.long (x + y))
        else .error EvalError.IntegerOverflow
      | .ok _ => .error EvalError.TypeMismatch
    | .ok _ => .error EvalError.TypeMismatch
  | .less a b =>
    match CoreExpr.evaluate a r es with
    | .error err => .error err
    | .ok (Value.long x) =>
      match CoreExpr.evaluate b r es with
      | .error err => .error err
      | .ok (Value.long y) => .ok (Value.bool (decide (x < y)))
      | .ok _ => .error EvalError.TypeMismatch
    | .ok _ => .error EvalError.TypeMismatch
  | .and a b =>
    match CoreExpr.evaluate a r es with
    | .error err => .error err
    | .ok (Value.bool false) => .ok (Value.bool false)
    | .ok (Value.bool true) => CoreExpr.evaluate b r es
    | .ok _ => .error EvalError.TypeMismatch
  | .ite c t e =>
    match CoreExpr.evaluate c r es with
    | .error err => .error err
    | .ok (Value.bool true) => CoreExpr.evaluate t r es
    | .ok (Value.bool false) => CoreExpr.evaluate e r es
    | .ok _ => .error EvalError.TypeMismatch

/-- An entity store holding no entity. -/
def EntityStore.empty : EntityStore :=
  { lookup := fun _ => none, ancestors := fun _ => [] }

/-! ## Concrete policies and requests -/

namespace sample

/-- The entity `User::"alice"`. -/
def alice : EntityUID := { type := "User", id := "alice" }

/-- The entity `User::"bob"`. -/
def bob : EntityUID := { type := "User", id := "bob" }

/-- The entity `Action::"view"`. -/
def view : EntityUID := { type := "Action", id := "view" }

/-- The entity `Photo::"trip"`. -/
def photo : EntityUID := { type := "Photo", id := "trip" }

/-- A request made by bob to view the photo. -/
def bobRequest : Request :=
  { principal := bob, action := view, resource := photo, context := [] }

/-- A request made by alice to view the photo. -/
def aliceRequest : Request :=
  { principal := alice, action := view, resource := photo, context := [] }

/-- The policy `permit (principal == User::"alice", action, resource)` with the single
clause `when 9223372036854775807 + 1`, parsed at the start of `a.cedar` and annotated
twice with the key `id`: its condition overflows when it is evaluated. -/
def overflowAst : internalast.Policy CoreExpr :=
  { Effect := internalast.EffectPermit
    Annotations := [{ Key := "id", Value := "first" }, { Key := "id", Value := "second" }]
    Principal := ScopeConstraint.Eq alice
    Action := ScopeConstraint.Any
    Resource := ScopeConstraint.Any
    Conditions := [{ Condition := ConditionKind.When,
                     Body := CoreExpr.add (CoreExpr.longLit Long.MAX) (CoreExpr.longLit 1) }]
    Position := { Filename := "a.cedar", Offset := 0, Line := 1, Column := 1 } }

/-- The policy `permit (principal, action, resource);` built programmatically rather than
parsed from a text: no annotation, no condition, and a position left at the Go zero
value. -/
def permitAllAst : internalast.Policy CoreExpr :=
  { Effect := internalast.EffectPermit
    Annotations := []
    Principal := ScopeConstraint.Any
    Action := ScopeConstraint.Any
    Resource := ScopeConstraint.Any
    Conditions := []
    Position := { Filename := "", Offset := 0, Line := 0, Column := 0 } }

/-- The policy `forbid (principal, action, resource) unless 1 < 2;` parsed on the second
line of `a.cedar`: its condition never holds. -/
def forbidUnlessAst : internalast.Policy CoreExpr :=
  { Effect := internalast.EffectForbid
    Annotations := []
    Principal := ScopeConstraint.Any
    Action := ScopeConstraint.Any
    Resource := ScopeConstraint.Any
    Conditions := [{ Condition := ConditionKind.Unless,
                     Body := CoreExpr.less (CoreExpr.longLit 1) (CoreExpr.longLit 2) }]
    Position := { Filename := "a.cedar", Offset := 80, Line := 2, Column := 1 } }

/-- The policy `forbid (principal in Group::"banned", action, resource);`. -/
def forbidBannedAst : internalast.Policy CoreExpr :=
  { Effect := internalast.EffectForbid
    Annotations := []
    Principal := ScopeConstraint.In { type := "Group", id := "banned" }
    Action := ScopeConstraint.Any
    Resource := ScopeConstraint.Any
    Conditions := []
    Position := { Filename := "a.cedar", Offset := 140, Line := 3, Column := 1 } }

/-- An entity store in which bob, and nobody else, is in `Group::"banned"`. -/
def bobBanned : EntityStore :=
  { lookup := fun _ => none
    ancestors := fun u => if u = bob then [{ type := "Group", id := "banned" }] else [] }

/-- The compiler of policies over `CoreExpr`. -/
def compile : internalast.Policy CoreExpr → eval.Evaler :=
  eval.Compile CoreExpr.evaluate

end sample

/-! ## Theorems -/

namespace cedar

/-- The evaluator stored by `newPolicy` with the compiler of the evaluation core is the
policy evaluator `isSatisfied` of the AST. -/
theorem newPolicy_eval {Expr : Type}
    (evaluate : Expr → Request → EntityStore → Except EvalError Value)
    (a : internalast.Policy Expr) (r : Request) (es : EntityStore) :
    (newPolicy (eval.Compile evaluate) a).eval r es = isSatisfied evaluate a r es := rfl

/-- C3: every policy has exactly one of the two effects. `p.Effect()` is `Permit` or
`Forbid`, never both, `Permit` differs from `Forbid`, and `p.Effect()` is `Permit` exactly
when the AST effect is the permit (true) value and `Forbid` exactly when it is the forbid
(false) value. -/
theorem Policy.effect_permit_xor_forbid {Expr : Type} (p : Policy Expr) :
    (p.Effect = Permit ∨ p.Effect = Forbid) ∧
    ¬ (p.Effect = Permit ∧ p.Effect = Forbid) ∧
    Permit ≠ Forbid ∧
    (p.Effect = Permit ↔ p.ast.Effect = internalast.EffectPermit) ∧
    (p.Effect = Forbid ↔ p.ast.Effect = internalast.EffectForbid) := by
  unfold Policy.Effect Permit Forbid internalast.EffectPermit internalast.EffectForbid
  cases p.ast.Effect <;> simp

/-- C5: `SetFilename` changes only the filename. After `p.SetFilename(f)` the position has
filename `f` and the offset, line and column it had before, and `Effect()`,
`Annotations()` and the compiled evaluator are unchanged. -/
theorem Policy.setFilename_frame {Expr : Type} (p : Policy Expr) (f : String) :
    (p.SetFilename f).Position.Filename = f ∧
    (p.SetFilename f).Position.Offset = p.Position.Offset ∧
    (p.SetFilename f).Position.Line = p.Position.Line ∧
    (p.SetFilename f).Position.Column = p.Position.Column ∧
    (p.SetFilename f).Effect = p.Effect ∧
    (p.SetFilename f).Annotations = p.Annotations ∧
    (p.SetFilename f).eval = p.eval :=
  ⟨rfl, rfl, rfl, rfl, rfl, rfl, rfl⟩

/-- C6, as stated, fails: the policy created through `NewPolicyFromAST` from the
programmatically built `permit (principal, action, resource);` reports line 0 and
column 0, which are not line and column numbers starting at 1. -/
theorem Policy.position_ranges_counterexample :
    (NewPolicyFromAST sample.compile sample.permitAllAst).Position =
      { Filename := "", Offset := 0, Line := 0, Column := 0 } ∧
    ¬ (1 ≤ (NewPolicyFromAST sample.compile sample.permitAllAst).Position.Line) ∧
    ¬ (1 ≤ (NewPolicyFromAST sample.compile sample.permitAllAst).Position.Column) := by
  refine ⟨rfl, ?_, ?_⟩ <;> decide

/-- C6, amended: `Position()` returns the position stored in the AST of the policy, field
for field and without any range check. The filename, offset, line and column of
`p.Position()` are those of the AST position; a policy created through `NewPolicyFromAST`
from an AST that stores any filename `f` and any integers `o`, `l`, `c` reports exactly
`f`, `o`, `l`, `c`; and so the documented ranges hold for `p.Position()` exactly when they
hold for the stored AST position. -/
theorem Policy.position_as_stored {Expr : Type}
    (Compile : internalast.Policy Expr → eval.Evaler) (a : internalast.Policy Expr)
    (p : Policy Expr) (f : String) (o l c : Int) :
    (p.Position.Filename = p.ast.Position.Filename ∧
      p.Position.Offset = p.ast.Position.Offset ∧
      p.Position.Line = p.ast.Position.Line ∧
      p.Position.Column = p.ast.Position.Column) ∧
    (NewPolicyFromAST Compile
        { a with Position := { Filename := f, Offset := o, Line := l, Column := c } }).Position =
      { Filename := f, Offset := o, Line := l, Column := c } ∧
    ((0 ≤ p.Position.Offset ∧ 1 ≤ p.Position.Line ∧ 1 ≤ p.Position.Column) ↔
      (0 ≤ p.ast.Position.Offset ∧ 1 ≤ p.ast.Position.Line ∧ 1 ≤ p.ast.Position.Column)) :=
  ⟨⟨rfl, rfl, rfl, rfl⟩, rfl, Iff.rfl⟩

/-- C6, amended, on concrete inputs: the policy whose AST stores offset 0, line 1,
column 1 reports a position within the documented ranges, and a policy created from an
AST that stores offset -3, line -7, column 0 reports exactly these. -/
theorem Policy.position_as_stored_witness :
    (0 ≤ (newPolicy sample.compile sample.overflowAst).Position.Offset ∧
      1 ≤ (newPolicy sample.compile sample.overflowAst).Position.Line ∧
      1 ≤ (newPolicy sample.compile sample.overflowAst).Position.Column) ∧
    (NewPolicyFromAST sample.compile
        { sample.permitAllAst with
          Position := { Filename := "b.cedar", Offset := -3, Line := -7, Column := 0 } }).Position =
      { Filename := "b.cedar", Offset := -3, Line := -7, Column := 0 } :=
  ⟨(Policy.position_as_stored sample.compile sample.permitAllAst
      (newPolicy sample.compile sample.overflowAst) "b.cedar" (-3) (-7) 0).2.2.mpr (by decide),
    (Policy.position_as_stored sample.compile sample.permitAllAst
      (newPolicy sample.compile sample.overflowAst) "b.cedar" (-3) (-7) 0).2.1⟩

end cedar

/-- C2: when the scope of a policy does not match the request, `isSatisfied` is
`NotSatisfied`, whatever the condition clauses are and whatever the expression evaluator
would answer on them; in particular the result is never `Errored`. -/
theorem isSatisfied_scope_mismatch {Expr : Type}
    (evaluate : Expr → Request → EntityStore → Except EvalError Value)
    (p : internalast.Policy Expr) (r : Request) (es : EntityStore)
    (h : scopeMatches p r es = false) :
    isSatisfied evaluate p r es = Outcome.NotSatisfied ∧
    ∀ e, isSatisfied evaluate p r es ≠ Outcome.Errored e := by
  have hns : isSatisfied evaluate p r es = Outcome.NotSatisfied := by
    unfold isSatisfied
    rw [h]
    rfl
  refine ⟨hns, ?_⟩
  intro e he
  rw [hns] at he
  cases he

/-- Witness for C2: the scope `principal == User::"alice"` does not match a request made
by bob; the only condition overflows when it is evaluated (a request made by alice gets
`Errored IntegerOverflow`), and the request made by bob gets `NotSatisfied`. -/
theorem isSatisfied_scope_mismatch_witness :
    scopeMatches sample.overflowAst sample.bobRequest EntityStore.empty = false ∧
    isSatisfied CoreExpr.evaluate sample.overflowAst sample.aliceRequest EntityStore.empty =
      Outcome.Errored EvalError.IntegerOverflow ∧
    (isSatisfied CoreExpr.evaluate sample.overflowAst sample.bobRequest EntityStore.empty =
        Outcome.NotSatisfied ∧
      ∀ e, isSatisfied CoreExpr.evaluate sample.overflowAst sample.bobRequest
        EntityStore.empty ≠ Outcome.Errored e) :=
  ⟨by decide, by decide,
    isSatisfied_scope_mismatch CoreExpr.evaluate sample.overflowAst sample.bobRequest
      EntityStore.empty (by decide)⟩

namespace cedar

/-- C7: annotations have no impact on policy evaluation. Two policies built by
`NewPolicyFromAST` (or `newPolicy`) from ASTs that differ only in their annotation lists
have compiled evaluators that agree on every request and entity store, and the same
`Effect()`. -/
theorem Policy.annotations_no_impact {Expr : Type}
    (evaluate : Expr → Request → EntityStore → Except EvalError Value)
    (a : internalast.Policy Expr) (annotations : List internalast.AnnotationType)
    (r : Request) (es : EntityStore) :
    (NewPolicyFromAST (eval.Compile evaluate) { a with Annotations := annotations }).eval r es =
      (NewPolicyFromAST (eval.Compile evaluate) a).eval r es ∧
    (newPolicy (eval.Compile evaluate) { a with Annotations := annotations }).eval r es =
      (newPolicy (eval.Compile evaluate) a).eval r es ∧
    (NewPolicyFromAST (eval.Compile evaluate) { a with Annotations := annotations }).Effect =
      (NewPolicyFromAST (eval.Compile evaluate) a).Effect ∧
    (newPolicy (eval.Compile evaluate) { a with Annotations := annotations }).Effect =
      (newPolicy (eval.Compile evaluate) a).Effect :=
  ⟨rfl, rfl, rfl, rfl⟩

end cedar

namespace cedar

/-- Unfolding `lastValue` on a non-empty list. -/
theorem lastValue_cons (e : internalast.AnnotationType) (rest : List internalast.AnnotationType)
    (k : types.Ident) :
    lastValue (e :: rest) k =
      match lastValue rest k with
      | some v => some v
      | none => if e.Key = k then some e.Value else none := rfl

/-- Reading a map after one assignment. -/
theorem Annotations.get?_set (m : Annotations) (k k1 : types.Ident) (v : String) :
    (Annotations.set m k v).get? k1 = if k = k1 then some v else m.get? k1 := by
  induction m with
  | nil => simp [Annotations.set, Annotations.get?]
  | cons kv rest ih =>
    obtain ⟨k0, v0⟩ := kv
    unfold Annotations.set
    by_cases h0 : k0 = k
    · subst h0
      by_cases h1 : k0 = k1 <;> simp [Annotations.get?, h1]
    · simp only [h0, if_false, Annotations.get?, ih]
      by_cases h1 : k = k1
      · subst h1
        simp [h0]
      · simp [h1]

/-- Reading the map built by the loop of `Annotations()`, started from any map. -/
theorem Annotations.get?_foldl (l : List internalast.AnnotationType) (m : Annotations)
    (k : types.Ident) :
    (l.foldl (fun res e => Annotations.set res e.Key e.Value) m).get? k =
      match lastValue l k with
      | some v => some v
      | none => m.get? k := by
  induction l generalizing m with
  | nil => simp [lastValue]
  | cons e rest ih =>
    rw [List.foldl_cons, ih, Annotations.get?_set, lastValue_cons]
    cases lastValue rest k with
    | some v => rfl
    | none => by_cases h : e.Key = k <;> simp [h]

/-- No entry of the list has key `k` exactly when `lastValue` finds nothing. -/
theorem lastValue_eq_none (l : List internalast.AnnotationType) (k : types.Ident) :
    lastValue l k = none ↔ ∀ e ∈ l, e.Key ≠ k := by
  induction l with
  | nil => simp [lastValue]
  | cons e rest ih =>
    rw [lastValue_cons]
    cases h : lastValue rest k with
    | some v =>
      simp only [false_iff, reduceCtorEq]
      intro hall
      have := ih.mpr (fun x hx => hall x (List.mem_cons_of_mem _ hx))
      rw [h] at this
      cases this
    | none =>
      have hr := ih.mp h
      by_cases hk : e.Key = k
      · simp [hk]
      · simp only [hk, if_false, true_iff]
        intro x hx
        rcases List.mem_cons.mp hx with rfl | hx
        · exact hk
        · exact hr x hx

/-- The entry found by `lastValue` is the last one with key `k`. -/
theorem lastValue_eq_some (l : List internalast.AnnotationType) (k : types.Ident) (v : String) :
    lastValue l k = some v ↔
      ∃ pre suf, l = pre ++ { Key := k, Value := v } :: suf ∧ ∀ e ∈ suf, e.Key ≠ k := by
  induction l with
  | nil => simp [lastValue]
  | cons e rest ih =>
    constructor
    · intro h
      rw [lastValue_cons] at h
      cases hr : lastValue rest k with
      | some w =>
        rw [hr] at h
        simp only [Option.some.injEq] at h
        subst h
        obtain ⟨pre, suf, hl, hs⟩ := ih.mp hr
        exact ⟨e :: pre, suf, by rw [hl]; rfl, hs⟩
      | none =>
        rw [hr] at h
        by_cases hk : e.Key = k
        · simp only [hk, if_true, Option.some.injEq] at h
          refine ⟨[], rest, ?_, (lastValue_eq_none rest k).mp hr⟩
          cases e
          simp_all
        · simp [hk] at h
    · rintro ⟨pre, suf, hl, hs⟩
      cases pre with
      | nil =>
        simp only [List.nil_append, List.cons.injEq] at hl
        obtain ⟨he, hrest⟩ := hl
        subst hrest
        rw [lastValue_cons, (lastValue_eq_none rest k).mpr hs, he]
        simp
      | cons x pre1 =>
        simp only [List.cons_append, List.cons.injEq] at hl
        obtain ⟨_, hrest⟩ := hl
        have := ih.mpr ⟨pre1, suf, hrest, hs⟩
        rw [lastValue_cons, this]

/-- C4: `Annotations()` retrieves the annotations of the policy. A key `k` is a key of
`p.Annotations()` if and only if some entry of the AST annotation list has key `k`; the
value mapped to `k` is the value of the last entry of the list with key `k`; and when the
keys of the list are distinct the map holds exactly the key/value pairs of the list. -/
theorem Policy.annotations_lookup {Expr : Type} (p : Policy Expr) (k : types.Ident) :
    ((∃ v, p.Annotations.get? k = some v) ↔ ∃ e ∈ p.ast.Annotations, e.Key = k) ∧
    (∀ v, p.Annotations.get? k = some v ↔
      ∃ pre suf, p.ast.Annotations = pre ++ { Key := k, Value := v } :: suf ∧
        ∀ e ∈ suf, e.Key ≠ k) ∧
    ((p.ast.Annotations.map (fun e => e.Key)).Nodup →
      ∀ v, p.Annotations.get? k = some v ↔
        ({ Key := k, Value := v } : internalast.AnnotationType) ∈ p.ast.Annotations) := by
  have hget : ∀ v, p.Annotations.get? k = some v ↔ lastValue p.ast.Annotations k = some v := by
    intro v
    unfold Policy.Annotations
    rw [Annotations.get?_foldl]
    cases lastValue p.ast.Annotations k with
    | some w => simp
    | none => simp [Annotations.get?]
  refine ⟨?_, ?_, ?_⟩
  · constructor
    · rintro ⟨v, hv⟩
      obtain ⟨pre, suf, hl, _⟩ := (lastValue_eq_some _ k v).mp ((hget v).mp hv)
      exact ⟨{ Key := k, Value := v }, by rw [hl]; simp, rfl⟩
    · rintro ⟨e, he, hk⟩
      cases h : lastValue p.ast.Annotations k with
      | some v => exact ⟨v, (hget v).mpr h⟩
      | none => exact absurd hk ((lastValue_eq_none _ k).mp h e he)
  · intro v
    rw [hget, lastValue_eq_some]
  · intro hnd v
    rw [hget, lastValue_eq_some]
    constructor
    · rintro ⟨pre, suf, hl, _⟩
      rw [hl]; simp
    · intro hmem
      obtain ⟨pre, suf, hl⟩ := List.append_of_mem hmem
      refine ⟨pre, suf, hl, ?_⟩
      intro e he hk
      rw [hl] at hnd
      simp only [List.map_append, List.map_cons] at hnd
      have h2 := (List.nodup_append.mp hnd).2.1
      rw [List.nodup_cons] at h2
      apply h2.1
      rw [← hk]
      exact List.mem_map_of_mem (fun e => e.Key) he

end cedar

namespace cedar

/-- The permits collected by one step of the authorizer loop. -/
theorem collectStep_permits {Expr : Type} (r : Request) (es : EntityStore) (acc : Collected)
    (entry : PolicyID × Policy Expr) :
    (collectStep r es acc entry).permits =
      acc.permits ++
        (if entry.2.eval r es = Outcome.Satisfied ∧ entry.2.Effect = Permit then [entry.1]
         else []) := by
  unfold collectStep
  cases h : entry.2.eval r es <;> by_cases he : entry.2.Effect = Permit <;> simp [he]

/-- The forbids collected by one step of the authorizer loop. -/
theorem collectStep_forbids {Expr : Type} (r : Request) (es : EntityStore) (acc : Collected)
    (entry : PolicyID × Policy Expr) :
    (collectStep r es acc entry).forbids =
      acc.forbids ++
        (if entry.2.eval r es = Outcome.Satisfied ∧ entry.2.Effect = Forbid then [entry.1]
         else []) := by
  unfold collectStep
  cases h : entry.2.eval r es <;> cases he : entry.2.Effect <;> simp [he, Permit, Forbid]

/-- The permits collected over a whole policy set are non-empty exactly when the
accumulator already held one or some Permit policy of the set is Satisfied. -/
theorem foldl_collectStep_permits {Expr : Type} (r : Request) (es : EntityStore)
    (policySet : List (PolicyID × Policy Expr)) (acc : Collected) :
    (policySet.foldl (collectStep r es) acc).permits ≠ [] ↔
      acc.permits ≠ [] ∨
        ∃ entry ∈ policySet, entry.2.Effect = Permit ∧ entry.2.eval r es = Outcome.Satisfied := by
  induction policySet generalizing acc with
  | nil => simp
  | cons entry rest ih =>
    rw [List.foldl_cons, ih, collectStep_permits]
    by_cases hs : entry.2.eval r es = Outcome.Satisfied ∧ entry.2.Effect = Permit
    · simp [hs]
    · simp only [hs, if_false, List.append_nil, List.mem_cons, exists_eq_or_imp]
      constructor
      · rintro (h | h)
        · exact Or.inl h
        · exact Or.inr (Or.inr h)
      · rintro (h | h | h)
        · exact Or.inl h
        · exact absurd ⟨h.2, h.1⟩ hs
        · exact Or.inr h

/-- The forbids collected over a whole policy set are non-empty exactly when the
accumulator already held one or some Forbid policy of the set is Satisfied. -/
theorem foldl_collectStep_forbids {Expr : Type} (r : Request) (es : EntityStore)
    (policySet : List (PolicyID × Policy Expr)) (acc : Collected) :
    (policySet.foldl (collectStep r es) acc).forbids ≠ [] ↔
      acc.forbids ≠ [] ∨
        ∃ entry ∈ policySet, entry.2.Effect = Forbid ∧ entry.2.eval r es = Outcome.Satisfied := by
  induction policySet generalizing acc with
  | nil => simp
  | cons entry rest ih =>
    rw [List.foldl_cons, ih, collectStep_forbids]
    by_cases hs : entry.2.eval r es = Outcome.Satisfied ∧ entry.2.Effect = Forbid
    · simp [hs]
    · simp only [hs, if_false, List.append_nil, List.mem_cons, exists_eq_or_imp]
      constructor
      · rintro (h | h)
        · exact Or.inl h
        · exact Or.inr (Or.inr h)
      · rintro (h | h | h)
        · exact Or.inl h
        · exact absurd ⟨h.2, h.1⟩ hs
        · exact Or.inr h

/-- C1: the authorizer combination rule. For every policy set, request and entity store,
`isAuthorized` returns `Allow` if and only if at least one Permit policy is Satisfied and
no Forbid policy is Satisfied; it returns `Deny` in every other case, that is when a
Satisfied Forbid exists or no Permit is Satisfied, and in particular on the empty policy
set. -/
theorem isAuthorized_decision {Expr : Type} (policySet : List (PolicyID × Policy Expr))
    (r : Request) (es : EntityStore) :
    ((isAuthorized policySet r es).decision = Decision.Allow ↔
      (∃ entry ∈ policySet, entry.2.Effect = Permit ∧ entry.2.eval r es = Outcome.Satisfied) ∧
      ¬ ∃ entry ∈ policySet, entry.2.Effect = Forbid ∧ entry.2.eval r es = Outcome.Satisfied) ∧
    ((isAuthorized policySet r es).decision = Decision.Deny ↔
      (∃ entry ∈ policySet, entry.2.Effect = Forbid ∧ entry.2.eval r es = Outcome.Satisfied) ∨
      ¬ ∃ entry ∈ policySet, entry.2.Effect = Permit ∧ entry.2.eval r es = Outcome.Satisfied) ∧
    (isAuthorized ([] : List (PolicyID × Policy Expr)) r es).decision = Decision.Deny := by
  have hp : (collect policySet r es).permits.isEmpty = true ↔
      ¬ ∃ entry ∈ policySet, entry.2.Effect = Permit ∧ entry.2.eval r es = Outcome.Satisfied := by
    have h := foldl_collectStep_permits r es policySet { permits := [], forbids := [], errors := [] }
    simp only [ne_eq, not_true_eq_false, false_or] at h
    rw [← h, List.isEmpty_iff, not_not]
    rfl
  have hf : (collect policySet r es).forbids.isEmpty = false ↔
      ∃ entry ∈ policySet, entry.2.Effect = Forbid ∧ entry.2.eval r es = Outcome.Satisfied := by
    have h := foldl_collectStep_forbids r es policySet { permits := [], forbids := [], errors := [] }
    simp only [ne_eq, not_true_eq_false, false_or] at h
    rw [← h, ← List.isEmpty_iff, Bool.not_eq_true]
    rfl
  refine ⟨?_, ?_, rfl⟩
  · unfold isAuthorized
    simp only []
    split_ifs with h1 h2
    · simp [hf.mp h1]
    · simp [hp.mp h2]
    · have a1 := mt hf.mpr h1
      have a2 := not_not.mp (mt hp.mpr h2)
      simp [a1, a2]
  · unfold isAuthorized
    simp only []
    split_ifs with h1 h2
    · simp [hf.mp h1]
    · simp [hp.mp h2]
    · have a1 := mt hf.mpr h1
      have a2 := not_not.mp (mt hp.mpr h2)
      simp [a1, a2]

end cedar

namespace parsererror

/-- C9: `pe.Error()` is the default rendering of `pe.Position`, followed by `": "`,
followed by the default rendering of `pe.Message`, which is the message itself; the
result ends with `pe.Message`, and two errors with the same position and different
messages have different `Error()` strings. -/
theorem PositionalError.error_format (pe other : PositionalError) :
    pe.Error = fmtPosition pe.Position ++ ": " ++ fmtString pe.Message ∧
    fmtString pe.Message = pe.Message ∧
    (∃ front, pe.Error = front ++ pe.Message) ∧
    pe.Message.data <:+ pe.Error.data ∧
    (pe.Position = other.Position ∧ pe.Message ≠ other.Message → pe.Error ≠ other.Error) := by
  refine ⟨rfl, rfl, ⟨fmtPosition pe.Position ++ ": ", rfl⟩, ?_, ?_⟩
  · refine ⟨(fmtPosition pe.Position ++ ": ").data, ?_⟩
    simp [PositionalError.Error, fmtString, String.data_append]
  · rintro ⟨hpos, hmsg⟩ heq
    apply hmsg
    unfold PositionalError.Error fmtString at heq
    rw [hpos] at heq
    have hd := congrArg String.data heq
    simp only [String.data_append, List.append_cancel_left_eq] at hd
    exact String.ext hd

end parsererror

/-! ## The definitions evaluated on concrete inputs -/

namespace sample

/-- The authorization combination cases of spec §8, run on the model: one Permit matching
and no Forbid matching gives `Allow`; a Permit and a Forbid both matching give `Deny`;
zero policies, or only non-matching policies, give `Deny`; a Permit whose condition errors
gives `Deny` and the error is reported. -/
theorem isAuthorized_cases :
    cedar.isAuthorized
        [("p0", cedar.newPolicy compile permitAllAst), ("f0", cedar.newPolicy compile forbidBannedAst),
          ("f1", cedar.newPolicy compile forbidUnlessAst)] aliceRequest bobBanned =
      { decision := cedar.Decision.Allow, determiningPermits := ["p0"], determiningForbids := [],
        errors := [] } ∧
    cedar.isAuthorized
        [("p0", cedar.newPolicy compile permitAllAst), ("f0", cedar.newPolicy compile forbidBannedAst)]
        bobRequest bobBanned =
      { decision := cedar.Decision.Deny, determiningPermits := [], determiningForbids := ["f0"],
        errors := [] } ∧
    cedar.isAuthorized ([] : List (cedar.PolicyID × cedar.Policy CoreExpr)) aliceRequest bobBanned =
      { decision := cedar.Decision.Deny, determiningPermits := [], determiningForbids := [],
        errors := [] } ∧
    cedar.isAuthorized [("f0", cedar.newPolicy compile forbidBannedAst)] aliceRequest bobBanned =
      { decision := cedar.Decision.Deny, determiningPermits := [], determiningForbids := [],
        errors := [] } ∧
    cedar.isAuthorized [("p1", cedar.newPolicy compile overflowAst)] aliceRequest bobBanned =
      { decision := cedar.Decision.Deny, determiningPermits := [], determiningForbids := [],
        errors := [("p1", EvalError.IntegerOverflow)] } := by
  refine ⟨?_, ?_, ?_, ?_, ?_⟩ <;> decide

/-- The accessors of `policy.go` on the parsed policy `overflowAst`: of its two
annotations with key `id` the map keeps the second; renaming the file changes the
filename of the position only. -/
theorem accessors_cases :
    (cedar.newPolicy compile overflowAst).Annotations = [("id", "second")] ∧
    (cedar.newPolicy compile overflowAst).Effect = cedar.Permit ∧
    (cedar.newPolicy compile forbidUnlessAst).Effect = cedar.Forbid ∧
    (cedar.newPolicy compile overflowAst).Position =
      { Filename := "a.cedar", Offset := 0, Line := 1, Column := 1 } ∧
    ((cedar.newPolicy compile overflowAst).SetFilename "b.cedar").Position =
      { Filename := "b.cedar", Offset := 0, Line := 1, Column := 1 } := by
  refine ⟨?_, ?_, ?_, ?_, ?_⟩ <;> decide

/-- The error string of a positional error at the start of `a.cedar`. -/
theorem error_cases :
    parsererror.PositionalError.Error
        { Position := { Filename := "a.cedar", Offset := 0, Line := 1, Column := 1 },
          Message := "unexpected token" } =
      "\x7ba.cedar 0 1 1\x7d: unexpected token" ∧
    parsererror.PositionalError.Error
        { Position := { Filename := "", Offset := 12, Line := -1, Column := 0 },
          Message := "" } =
      "\x7b 12 -1 0\x7d: " := by
  refine ⟨?_, ?_⟩ <;> decide

end sample
